import Mathlib

/-!
Verification of the planner-mcp task subsystem: a shallow embedding of the
task store operations (MCP server `index.ts` and the dashboard API route
`[...action].ts`), the command parser (`commandProcessor.ts`), the task
categorizer (`categorizeTask`), and the fuzzy task resolver
(`findTaskByName` in `MCPPromptsPanel.tsx`), together with theorems about
the properties stated in the specification.

Strings are modelled as `List Char`; JavaScript `toLowerCase` is modelled
on its ASCII fragment via an explicit case table; `includes`, `startsWith`,
`trim` and `split` are modelled directly.
-/

namespace Planner

/-- Conversion from a Lean string literal to the `List Char` representation. -/
def str (s : String) : List Char := s.data

/-- Whitespace characters recognised by the model of JS `trim`, `\s` and `split`. -/
def isWs (c : Char) : Bool := c == ' ' || c == '\t' || c == '\n' || c == '\r'

/-- Line terminators, which JS regex `.` does not match. -/
def isNl (c : Char) : Bool := c == '\n' || c == '\r'

/-- ASCII upper-to-lower case table, the fragment of JS `toLowerCase` used here. -/
def caseTable : List (Char × Char) :=
  [('A','a'),('B','b'),('C','c'),('D','d'),('E','e'),('F','f'),('G','g'),
   ('H','h'),('I','i'),('J','j'),('K','k'),('L','l'),('M','m'),('N','n'),
   ('O','o'),('P','p'),('Q','q'),('R','r'),('S','s'),('T','t'),('U','u'),
   ('V','v'),('W','w'),('X','x'),('Y','y'),('Z','z')]

/-- Lower-case a single character (ASCII fragment of JS `toLowerCase`). -/
def lowerChar (c : Char) : Char :=
  match caseTable.find? (fun p => p.1 == c) with
  | some p => p.2
  | none => c

/-- Lower-case a string, modelling JS `toLowerCase`. -/
def lowerStr (l : List Char) : List Char := l.map lowerChar

/-- A character is an ASCII capital letter. -/
def isUpperCh (c : Char) : Bool := (caseTable.find? (fun p => p.1 == c)).isSome

/-- A string contains no ASCII capital letter. -/
def noUpper (l : List Char) : Bool := l.all (fun c => !isUpperCh c)

/-- Model of JS `String.prototype.trim`. -/
def trimStr (l : List Char) : List Char :=
  ((l.dropWhile isWs).reverse.dropWhile isWs).reverse

/-- `startsWith pat s` models JS `s.startsWith(pat)`. -/
def startsWith : List Char → List Char → Bool
  | [], _ => true
  | _ :: _, [] => false
  | p :: ps, c :: cs => p == c && startsWith ps cs

/-- `containsSub pat s` models JS `s.includes(pat)`. -/
def containsSub (pat : List Char) : List Char → Bool
  | [] => pat.isEmpty
  | c :: cs => startsWith pat (c :: cs) || containsSub pat cs

/-- Decimal digit characters of a natural number, written with structural fuel. -/
def natStrGo : Nat → Nat → List Char → List Char
  | 0, _, acc => acc
  | fuel + 1, n, acc =>
    let d := Char.ofNat (48 + n % 10)
    if n < 10 then d :: acc else natStrGo fuel (n / 10) (d :: acc)

/-- Decimal representation of a natural number, modelling JS number-to-string. -/
def natStr (n : Nat) : List Char := natStrGo (n + 1) n []

/-- Time slots of the planner. -/
inductive Slot
  | morning
  | afternoon
  | evening
deriving DecidableEq

/-- A task record as stored in `daily-plan.json`: `archived?: boolean` with
`undefined` read as `false`. -/
structure Task where
  id : Nat
  text : List Char
  completed : Bool
  archived : Bool
  timeSlot : Option Slot
deriving DecidableEq

/-- `plan.tasks.find(t => t.id === taskId)`. -/
def findTask (i : Nat) (s : List Task) : Option Task :=
  s.find? (fun t => t.id == i)

/-- Mutating the first task with a given id, as the JS handlers do through the
object returned by `find`. -/
def setFirst (i : Nat) (f : Task → Task) : List Task → List Task
  | [] => []
  | t :: ts => if t.id == i then f t :: ts else t :: setFirst i f ts

/-- Projection to observable success: `.ok` as `some`. -/
def okOf : Except (List Char) (List Task) → Option (List Task)
  | .ok s => some s
  | .error _ => none

/-- Whether a handler call raised an error. -/
def isErr : Except (List Char) (List Task) → Bool
  | .ok _ => false
  | .error _ => true

/-- The `add_task` handler: pushes a fresh task with `completed: false`
and no archived flag.  The fresh id is a parameter of the model. -/
def addTaskOp (s : List Task) (i : Nat) (text : List Char) (slot : Option Slot) :
    List Task :=
  s ++ [⟨i, text, false, false, slot⟩]

/-- The MCP server `complete_task` handler (toggle variant,
`task.completed = !task.completed`). -/
def completeToggleOp (s : List Task) (i : Nat) : Except (List Char) (List Task) :=
  match findTask i s with
  | none => .error (str "Task not found")
  | some _ => .ok (setFirst i (fun t => { t with completed := !t.completed }) s)

/-- The dashboard API `complete_task` handler (set variant,
`task.completed = true`). -/
def completeSetOp (s : List Task) (i : Nat) : Except (List Char) (List Task) :=
  match findTask i s with
  | none => .error (str "Task not found")
  | some _ => .ok (setFirst i (fun t => { t with completed := true }) s)

/-- The `archive_task` handler: errors when the task is missing or not
completed, otherwise sets `archived = true`. -/
def archiveTaskOp (s : List Task) (i : Nat) : Except (List Char) (List Task) :=
  match findTask i s with
  | none => .error (str "Task not found")
  | some t =>
    if t.completed then
      .ok (setFirst i (fun u => { u with archived := true }) s)
    else
      .error (str "Task must be completed before archiving: " ++ t.text)

/-- Round-robin slot for the k-th unscheduled task, `slots[index % 3]`. -/
def slotOfIndex (k : Nat) : Slot :=
  if k % 3 = 0 then .morning else if k % 3 = 1 then .afternoon else .evening

/-- Helper for `plan_day`: walks the list keeping a counter over the
filtered (slot-less, incomplete) tasks. -/
def planDayAux : Nat → List Task → List Task
  | _, [] => []
  | k, t :: ts =>
    if t.timeSlot.isNone && !t.completed then
      { t with timeSlot := some (slotOfIndex k) } :: planDayAux (k + 1) ts
    else
      t :: planDayAux k ts

/-- The `plan_day` handler: assigns unscheduled incomplete tasks round-robin. -/
def planDayOp (s : List Task) : List Task := planDayAux 0 s

/-- The data-model invariant `archived ⇒ completed`, as a boolean check. -/
def invariantOk (s : List Task) : Bool :=
  s.all (fun t => !t.archived || t.completed)

/-- The plan that is actually persisted after an `archive_task` call:
on error nothing is written, so the prior plan remains. -/
def persistedArchive (s : List Task) (i : Nat) : List Task :=
  match archiveTaskOp s i with
  | .ok s2 => s2
  | .error _ => s

/-- Observable `completed` flag of task `i` after a handler call;
`none` when the call failed or the task is absent. -/
def completedResult (r : Except (List Char) (List Task)) (i : Nat) : Option Bool :=
  match r with
  | .ok s => (findTask i s).map (·.completed)
  | .error _ => none

/-- The time-slot token table of `parseDayTimeSpec`, in declared order. -/
def timeSlotEntries : List (List Char × Slot) :=
  [(str "morning", .morning), (str "afternoon", .afternoon),
   (str "evening", .evening), (str "am", .morning), (str "pm", .afternoon),
   (str "night", .evening)]

/-- The day token table `dayPatterns` of `parseDayTimeSpec`, in declared order. -/
def dayEntries : List (List Char × Nat) :=
  [(str "today", 0), (str "tomorrow", 1),
   (str "monday", 1), (str "tuesday", 2), (str "wednesday", 3),
   (str "thursday", 4), (str "friday", 5), (str "saturday", 6),
   (str "sunday", 0),
   (str "mon", 1), (str "tue", 2), (str "tues", 2), (str "wed", 3),
   (str "thu", 4), (str "thurs", 4), (str "fri", 5), (str "sat", 6),
   (str "sun", 0)]

/-- The proper weekday entries of `dayEntries` (everything but today/tomorrow). -/
def weekdayEntries : List (List Char × Nat) := dayEntries.drop 2

/-- Result of `parseDayTimeSpec`.  Dates are represented by their offset in
days from today at local midnight. -/
structure DayTimeSpec where
  day : Option (List Char)
  timeSlot : Option Slot
  dateOffset : Option Nat
deriving DecidableEq

/-- `parseDayTimeSpec` from `commandProcessor.ts`: extracts the first matching
time-slot token, then resolves today/tomorrow or the first matching weekday
name with `daysUntil = dayOfWeek - todayDayOfWeek; if daysUntil <= 0 then
daysUntil += 7`.  `todayW` is `today.getDay()` (0 = Sunday). -/
def parseDayTimeSpec (spec : List Char) (todayW : Nat) : DayTimeSpec :=
  let ns := trimStr (lowerStr spec)
  let timeSlot := (timeSlotEntries.find? (fun p => containsSub p.1 ns)).map (·.2)
  if containsSub (str "today") ns then
    ⟨some (str "today"), timeSlot, some 0⟩
  else if containsSub (str "tomorrow") ns then
    ⟨some (str "tomorrow"), timeSlot, some 1⟩
  else
    match dayEntries.find? (fun p => containsSub p.1 ns) with
    | some p =>
      let d : Int := (p.2 : Int) - (todayW : Int)
      let d := if d ≤ 0 then d + 7 else d
      ⟨some p.1, timeSlot, some d.toNat⟩
    | none => ⟨none, timeSlot, none⟩

/-- A parsed add-task command (the `action` field is always `add-task`). -/
structure Command where
  taskText : List Char
  day : Option (List Char)
  timeSlot : Option Slot
  dateOffset : Option Nat
deriving DecidableEq

/-- Strip a literal pattern head: `some` of the remainder when `s` starts
with `pre`. -/
def dropPre (pre s : List Char) : Option (List Char) :=
  if startsWith pre s then some (s.drop pre.length) else none

/-- Match of the regex tail `\s*(.+)$` against `tail` (JS `.` does not match
line terminators): greedy whitespace with backtracking, then the captured
group 2. -/
def restMatch (tail : List Char) : Option (List Char) :=
  let r := tail.dropWhile isWs
  if !r.isEmpty then
    if r.all (fun c => !isNl c) then some r else none
  else
    match tail.getLast? with
    | some c => if isNl c then none else some [c]
    | none => none

/-- Lazy scan for `(.+?)` followed by a literal `marker` and `\s*(.+)$`:
`g1rev` is the reversed group-1 text accumulated so far (nonempty, free of
line terminators); at each boundary the marker is tried, and on failure one
more character moves into group 1. -/
def lazySplitGo (marker : List Char) (g1rev : List Char) :
    List Char → Option (List Char × List Char)
  | [] => none
  | c :: cs =>
    match (if startsWith marker (c :: cs) then
             restMatch ((c :: cs).drop marker.length)
           else none) with
    | some g2 => some (g1rev.reverse, g2)
    | none => if isNl c then none else lazySplitGo marker (c :: g1rev) cs

/-- Match of `(.+?)<marker>\s*(.+)$` against `r`, returning the two captured
groups of the first (leftmost, lazy) successful split. -/
def lazySplit (marker : List Char) : List Char → Option (List Char × List Char)
  | [] => none
  | c :: cs => if isNl c then none else lazySplitGo marker [c] cs

/-- The `addTaskPatterns` template list as (literal head, literal marker)
pairs, in declared order:
`^add task for (.+?):\s*(.+)$`, `^add (.+?) task:\s*(.+)$`,
`^add (.+?):\s*(.+)$`, `^(.+?) task:\s*(.+)$`, `^task for (.+?):\s*(.+)$`. -/
def addTaskPatterns : List (List Char × List Char) :=
  [(str "add task for ", str ":"),
   (str "add ", str " task:"),
   (str "add ", str ":"),
   ([], str " task:"),
   (str "task for ", str ":")]

/-- Try one template pattern against the normalized input. -/
def runPattern (norm : List Char) (p : List Char × List Char) :
    Option (List Char × List Char) :=
  match dropPre p.1 norm with
  | none => none
  | some r => lazySplit p.2 r

/-- `parseTaskCommand` from `commandProcessor.ts`: lowercases and trims the
utterance, tries the templates in order, and on the first match builds the
command from the trimmed group 2 and the day/time spec of group 1. -/
def parseTaskCommand (input : List Char) (todayW : Nat) : Option Command :=
  let norm := trimStr (lowerStr input)
  match addTaskPatterns.findSome? (runPattern norm) with
  | some (g1, g2) =>
    let d := parseDayTimeSpec g1 todayW
    some ⟨trimStr g2, d.day, d.timeSlot, d.dateOffset⟩
  | none => none

/-- The specification formula for the next occurrence of weekday `w` when
today is weekday `tw`: strictly positive, at most seven days out. -/
def nextOffset (w tw : Nat) : Nat :=
  if w ≤ tw then w + 7 - tw else w - tw

/-- Predicate: an optional string has no ASCII capital letter. -/
def optNoUpper : Option (List Char) → Bool
  | none => true
  | some d => noUpper d

/-- Model of JS `split(/\s+/)`: fields between maximal whitespace runs,
keeping empty boundary fields.  `acc` is the reversed current field and
`inWs` records whether the scan is inside a whitespace run. -/
def splitWsGo : List Char → List Char → Bool → List (List Char)
  | [], acc, inWs => if inWs then [[]] else [acc.reverse]
  | c :: cs, acc, inWs =>
    if isWs c then
      if inWs then splitWsGo cs acc true
      else acc.reverse :: splitWsGo cs [] true
    else
      splitWsGo cs (c :: acc) false

/-- JS `taskName.split(/\s+/)`. -/
def splitWs (l : List Char) : List (List Char) := splitWsGo l [] false

/-- The schedule snapshot handed to the prompts panel. -/
structure Schedule where
  morning : List Task
  afternoon : List Task
  evening : List Task
  unscheduled : List Task

/-- Confidence tiers of the fuzzy task resolver. -/
inductive Confidence
  | exact
  | high
  | medium
  | low
  | ambiguous
  | none
deriving DecidableEq

/-- Result of the fuzzy task resolver (`TaskMatchResult`); `matchList` is
the `matches` field of the source. -/
structure MatchResult where
  task : Option Task
  confidence : Confidence
  matchList : Option (List Task)
deriving DecidableEq

/-- `findTaskByName` from `MCPPromptsPanel.tsx`: over the non-completed
tasks of the snapshot, in order, try exact equality, prefix, all-words,
substring, then the fuzzy any-long-word tier. -/
def findTaskByName (sched : Schedule) (taskName : List Char) : MatchResult :=
  let allTasks :=
    (sched.morning ++ sched.afternoon ++ sched.evening ++ sched.unscheduled).filter
      (fun t => !t.completed)
  let lowerTaskName := lowerStr taskName
  match allTasks.find? (fun t => lowerStr t.text == lowerTaskName) with
  | some t => ⟨some t, .exact, Option.none⟩
  | Option.none =>
  match allTasks.find? (fun t => startsWith lowerTaskName (lowerStr t.text)) with
  | some t => ⟨some t, .high, Option.none⟩
  | Option.none =>
  let taskWords := splitWs lowerTaskName
  match allTasks.find?
      (fun t => taskWords.all (fun w => containsSub w (lowerStr t.text))) with
  | some t => ⟨some t, .high, Option.none⟩
  | Option.none =>
  match allTasks.find? (fun t => containsSub lowerTaskName (lowerStr t.text)) with
  | some t => ⟨some t, .medium, Option.none⟩
  | Option.none =>
  let fuzzyMatches := allTasks.filter
    (fun t => taskWords.any
      (fun w => decide (w.length > 2) && containsSub w (lowerStr t.text)))
  match fuzzyMatches with
  | [] => ⟨Option.none, .none, Option.none⟩
  | [t] => ⟨some t, .low, Option.none⟩
  | ms => ⟨Option.none, .ambiguous, some ms⟩

/-- The dispatcher decision for a `complete_task` intent carrying only a
`taskName`: the id passed to the completion tool, or `none` when the
resolver confidence is not `exact` or `high` (the action is skipped). -/
def completeByNameDecision (sched : Schedule) (name : List Char) : Option Nat :=
  let m := findTaskByName sched name
  if m.confidence = .exact ∨ m.confidence = .high then m.task.map (·.id)
  else Option.none

/-- The store effect of that dispatcher branch, for an arbitrary completion
call `call`: the tool is invoked only when a decision was made. -/
def dispatchCompleteByName (call : List Task → Nat → List Task)
    (sched : Schedule) (name : List Char) (s : List Task) : List Task :=
  match completeByNameDecision sched name with
  | some i => call s i
  | Option.none => s

/-- Morning keyword list of `categorizeTask`. -/
def morningKeywords : List (List Char) :=
  [str "breakfast", str "coffee", str "morning", str "wake up", str "shower",
   str "exercise", str "gym", str "jog", str "run", str "meditation",
   str "yoga", str "check email", str "review", str "plan day",
   str "morning routine", str "get ready", str "commute", str "early",
   str "dawn", str "sunrise"]

/-- Afternoon keyword list of `categorizeTask`. -/
def afternoonKeywords : List (List Char) :=
  [str "lunch", str "meeting", str "work", str "call", str "appointment",
   str "errands", str "shopping", str "grocery", str "bank", str "office",
   str "project", str "deadline", str "presentation", str "conference",
   str "interview", str "doctor", str "dentist", str "pickup",
   str "drop off"]

/-- Evening keyword list of `categorizeTask`. -/
def eveningKeywords : List (List Char) :=
  [str "dinner", str "cook", str "evening", str "night", str "after work",
   str "relax", str "unwind", str "watch", str "movie", str "tv",
   str "read", str "book", str "family time", str "date", str "friends",
   str "bar", str "restaurant", str "late", str "sunset", str "bedtime",
   str "sleep"]

/-- JS word characters, the class `\w` used by the `\b` boundary. -/
def isWordChar (c : Char) : Bool := c.isAlpha || c.isDigit || c == '_'

/-- Hour digits 6-9 of the time pattern. -/
def isHourDigit (c : Char) : Bool := c == '6' || c == '7' || c == '8' || c == '9'

/-- After an hour digit, the regex `\s*(:|am|\s*am)` requires a colon or
"am" after optional whitespace. -/
def hourFollowOk (cs : List Char) : Bool :=
  let r := cs.dropWhile isWs
  startsWith (str ":") r || startsWith (str "am") r

/-- Scan for the regex `\b[6-9]\s*(:|am|\s*am)`: `prev` is the character
before the current position (for the word boundary). -/
def hourScan : Option Char → List Char → Bool
  | _, [] => false
  | prev, c :: cs =>
    ((match prev with | Option.none => true | some p => !isWordChar p) &&
      isHourDigit c && hourFollowOk cs) || hourScan (some c) cs

/-- `lowerText.match(/\b[6-9]\s*(:|am|\s*am)/)` is non-null. -/
def hourTokenMatch (l : List Char) : Bool := hourScan Option.none l

/-- Scan for a bare hour token 6-9 at a word boundary with no required
follower: the reading of the specification sentence in which the colon or
"am" after the hour token is optional. -/
def bareHourScan : Option Char → List Char → Bool
  | _, [] => false
  | prev, c :: cs =>
    ((match prev with | Option.none => true | some p => !isWordChar p) &&
      isHourDigit c) || bareHourScan (some c) cs

/-- Bare hour token 6-9 present (specification reading of rule 2). -/
def bareHourTok (l : List Char) : Bool := bareHourScan Option.none l

/-- Number of keyword list entries contained in the text. -/
def keywordScore (ks : List (List Char)) (lowerText : List Char) : Nat :=
  (ks.filter (fun k => containsSub k lowerText)).length

/-- `categorizeTask` from the dashboard API route: the lunch rule, the
morning rule, the evening pm rule, the evening word rule, then keyword
scoring with the declared tie-break order. -/
def categorizeTask (text : List Char) : Option Slot :=
  let lowerText := lowerStr text
  if containsSub (str "lunch") lowerText then some .afternoon
  else if containsSub (str "am") lowerText ||
      containsSub (str "morning") lowerText || hourTokenMatch lowerText then
    some .morning
  else if containsSub (str "pm") lowerText &&
      (containsSub (str "6") lowerText || containsSub (str "7") lowerText ||
       containsSub (str "8") lowerText || containsSub (str "9") lowerText ||
       containsSub (str "10") lowerText) then
    some .evening
  else if containsSub (str "evening") lowerText ||
      containsSub (str "night") lowerText ||
      containsSub (str "tonight") lowerText then
    some .evening
  else
    let morningScore := keywordScore morningKeywords lowerText
    let afternoonScore := keywordScore afternoonKeywords lowerText
    let eveningScore := keywordScore eveningKeywords lowerText
    if morningScore = 0 ∧ afternoonScore = 0 ∧ eveningScore = 0 then
      Option.none
    else if morningScore ≥ afternoonScore ∧ morningScore ≥ eveningScore then
      some .morning
    else if afternoonScore ≥ eveningScore then some .afternoon
    else some .evening

/-- The slot picked by the specification wording for keyword scoring: the
slot with the greatest count, ties broken by the fixed priority
morning > afternoon > evening. -/
def specPick (m a e : Nat) : Slot :=
  if m = max m (max a e) then .morning
  else if a = max m (max a e) then .afternoon
  else .evening

/-- Claim C8 as stated, with the optional-follower reading of the hour
token rule: any text without "lunch" that contains "am", "morning", or a
bare hour token 6-9 would be categorized as morning. -/
def claimC8Optional : Prop :=
  ∀ text : List Char,
    containsSub (str "lunch") (lowerStr text) = false →
    (containsSub (str "am") (lowerStr text) ||
      containsSub (str "morning") (lowerStr text) ||
      bareHourTok (lowerStr text)) = true →
    categorizeTask text = some Slot.morning

/-- Snapshot with exactly the two non-completed tasks of testable property
five of the specification. -/
def callSched : Schedule :=
  ⟨[], [], [], [⟨1, str "Call mom", false, false, Option.none⟩,
               ⟨2, str "Call dad", false, false, Option.none⟩]⟩

/-- The first of the two call tasks. -/
def callMom : Task := ⟨1, str "Call mom", false, false, Option.none⟩

/-- An empty snapshot, used to exhibit a resolution with confidence none. -/
def emptySched : Schedule := ⟨[], [], [], []⟩

/-- The tasks iterated by the `archive_completed` branch:
`allTasks.filter(t => t.completed && !t.archived)`. -/
def completedUnarchived (s : List Task) : List Task :=
  s.filter (fun t => t.completed && !t.archived)

/-- One collected error line,
`Failed to archive "${task.text}": ${message}`. -/
def archiveFailMsg (t : Task) (e : List Char) : List Char :=
  str "Failed to archive \"" ++ t.text ++ str "\": " ++ e

/-- Outcome of the `archive_completed` batch: the success counter, the
collected error lines, and the resulting store. -/
structure BatchResult where
  archivedCount : Nat
  errors : List (List Char)
  store : List Task

/-- The `archive_completed` loop: for each task, a failing tool call (the
`fails` oracle models an externally thrown call, an error result models the
server handler throwing) adds one error line and continues; a successful
call increments the counter and updates the store. -/
def runBatch (fails : Nat → Bool) : List Task → List Task → BatchResult
  | [], s => ⟨0, [], s⟩
  | t :: ts, s =>
    if fails t.id then
      let r := runBatch fails ts s
      ⟨r.archivedCount, archiveFailMsg t (str "Tool call failed") :: r.errors,
       r.store⟩
    else
      match archiveTaskOp s t.id with
      | .ok s2 =>
        let r := runBatch fails ts s2
        ⟨r.archivedCount + 1, r.errors, r.store⟩
      | .error e =>
        let r := runBatch fails ts s
        ⟨r.archivedCount, archiveFailMsg t e :: r.errors, r.store⟩

/-- The `archive_completed` handler body over a store snapshot. -/
def archiveCompletedBatch (fails : Nat → Bool) (s : List Task) : BatchResult :=
  runBatch fails (completedUnarchived s) s

/-- JS `errors.join(backslash-n)`. -/
def joinNl : List (List Char) → List Char
  | [] => []
  | [e] => e
  | e :: es => e ++ str "\n" ++ joinNl es

/-- The result message of `archive_completed`: the success count, plural
suffix, and, when any error was collected, the joined error lines. -/
def batchMessage (count : Nat) (errors : List (List Char)) : List Char :=
  str "✅ Successfully archived " ++
    (natStr count ++
      (str " completed task" ++
        ((if count ≠ 1 then str "s" else []) ++
          (str "!" ++
            (if errors.length > 0 then
              str "\n\n⚠️ Some tasks could not be archived:\n" ++ joinNl errors
            else [])))))

/-- The id/completed projection of a store; archive operations leave it
unchanged. -/
def shape (s : List Task) : List (Nat × Bool) :=
  s.map (fun t => (t.id, t.completed))

/-- Lookup of the completed flag in a shape. -/
def shapeLookup (sh : List (Nat × Bool)) (i : Nat) : Option Bool :=
  (sh.find? (fun p => p.1 == i)).map (·.2)

/-- Observable completed flag of the first task with a given id. -/
def completedLookup (s : List Task) (i : Nat) : Option Bool :=
  (findTask i s).map (·.completed)

/-- Observable archived flag of the first task with a given id. -/
def archivedLookup (s : List Task) (i : Nat) : Option Bool :=
  (findTask i s).map (·.archived)

/-- Store used in the archive-batch demonstration: two completed
unarchived tasks and one incomplete task. -/
def c6Store : List Task :=
  [⟨1, str "draft memo", true, false, none⟩,
   ⟨2, str "send memo", true, false, none⟩,
   ⟨3, str "file memo", false, false, none⟩]

/-- Failure oracle letting exactly the archive call for task 2 fail. -/
def c6Fails : Nat → Bool := fun i => i == 2

/-- Concrete stores used in the demonstrations below. -/
def c1s0 : List Task := addTaskOp [] 1 (str "write report") none

def c1s1 : List Task := [⟨1, str "write report", true, false, none⟩]

def c1s2 : List Task := [⟨1, str "write report", true, true, none⟩]

def c1s3 : List Task := [⟨1, str "write report", false, true, none⟩]

def c2Store : List Task := [⟨1, str "pay bills", true, false, none⟩]

def c2Store2 : List Task := [⟨2, str "buy milk", false, false, none⟩]

def c7Store : List Task := [⟨3, str "clean desk", false, false, none⟩]

end Planner

namespace Planner

theorem findTask_setFirst (i : Nat) (f : Task → Task)
    (hf : ∀ u, (f u).id = u.id) :
    ∀ (s : List Task) (t : Task), findTask i s = some t →
      findTask i (setFirst i f s) = some (f t) := by
  intro s
  induction s with
  | nil => intro t h; simp [findTask] at h
  | cons u us ih =>
    intro t h
    by_cases hu : (u.id == i) = true
    · simp [findTask, List.find?_cons, hu] at h
      subst h
      simp [setFirst, hu, findTask, List.find?_cons, hf u, hu]
    · simp only [Bool.not_eq_true] at hu
      simp [findTask, List.find?_cons, hu] at h
      simpa [setFirst, hu, findTask, List.find?_cons] using ih t h

theorem shape_setFirst_arch (i : Nat) :
    ∀ s : List Task,
      shape (setFirst i (fun u => { u with archived := true }) s) = shape s := by
  intro s
  induction s with
  | nil => rfl
  | cons t ts ih =>
    by_cases h : (t.id == i) = true
    · simp [setFirst, h, shape]
    · simp only [setFirst]
      rw [if_neg h]
      simp only [shape, List.map_cons] at ih ⊢
      rw [ih]

theorem completedLookup_eq_shape (s : List Task) (i : Nat) :
    completedLookup s i = shapeLookup (shape s) i := by
  induction s with
  | nil => rfl
  | cons t ts ih =>
    by_cases h : (t.id == i) = true
    · simp [completedLookup, findTask, List.find?_cons, h, shape, shapeLookup]
    · simp only [Bool.not_eq_true] at h
      simpa [completedLookup, findTask, List.find?_cons, h, shape, shapeLookup]
        using ih

theorem archive_ok_shape {s s2 : List Task} {i : Nat}
    (h : archiveTaskOp s i = .ok s2) : shape s2 = shape s := by
  unfold archiveTaskOp at h
  split at h
  · simp at h
  · split at h
    · rw [← Except.ok.inj h]
      exact shape_setFirst_arch i s
    · simp at h

theorem archive_ok_of_completedLookup {s : List Task} {i : Nat}
    (h : completedLookup s i = some true) :
    ∃ s2, archiveTaskOp s i = .ok s2 := by
  unfold completedLookup at h
  cases hf : findTask i s with
  | none => rw [hf] at h; simp at h
  | some t =>
    rw [hf] at h
    simp only [Option.map_some', Option.some.injEq] at h
    exact ⟨setFirst i (fun u => { u with archived := true }) s, by
      simp [archiveTaskOp, hf, h]⟩

theorem archivedLookup_cons (t : Task) (ts : List Task) (j : Nat) :
    archivedLookup (t :: ts) j =
      if (t.id == j) = true then some t.archived else archivedLookup ts j := by
  by_cases hj : (t.id == j) = true <;>
    simp [archivedLookup, findTask, List.find?_cons, hj]

theorem archivedLookup_setFirst_arch {j : Nat} (i : Nat) :
    ∀ s : List Task, archivedLookup s j = some true →
      archivedLookup (setFirst i (fun u => { u with archived := true }) s) j
        = some true := by
  intro s
  induction s with
  | nil => intro h; simp [archivedLookup, findTask] at h
  | cons t ts ih =>
    intro h
    rw [archivedLookup_cons] at h
    by_cases hj : (t.id == j) = true
    · rw [if_pos hj] at h
      by_cases hi : (t.id == i) = true
      · simp only [setFirst]
        rw [if_pos hi]
        simp [archivedLookup, findTask, List.find?_cons, hj]
      · simp only [setFirst]
        rw [if_neg hi, archivedLookup_cons, if_pos hj]
        exact h
    · rw [if_neg hj] at h
      by_cases hi : (t.id == i) = true
      · simp only [setFirst]
        rw [if_pos hi, archivedLookup_cons, if_neg (by simpa using hj)]
        exact h
      · simp only [setFirst]
        rw [if_neg hi, archivedLookup_cons, if_neg hj]
        exact ih h

theorem archive_ok_archived_mono {s s2 : List Task} {i j : Nat}
    (hok : archiveTaskOp s i = .ok s2)
    (h : archivedLookup s j = some true) : archivedLookup s2 j = some true := by
  unfold archiveTaskOp at hok
  split at hok
  · simp at hok
  · split at hok
    · rw [← Except.ok.inj hok]
      exact archivedLookup_setFirst_arch i s h
    · simp at hok

theorem archive_ok_archivedLookup {s s2 : List Task} {i : Nat}
    (hok : archiveTaskOp s i = .ok s2) : archivedLookup s2 i = some true := by
  unfold archiveTaskOp at hok
  split at hok
  · simp at hok
  · rename_i t hf
    split at hok
    · have h2 := findTask_setFirst i (fun u => { u with archived := true })
        (fun u => rfl) s t hf
      rw [← Except.ok.inj hok]
      simp [archivedLookup, h2]
    · simp at hok

theorem runBatch_archived_mono (fails : Nat → Bool) :
    ∀ (L s : List Task) (j : Nat),
      archivedLookup s j = some true →
      archivedLookup (runBatch fails L s).store j = some true := by
  intro L
  induction L with
  | nil => intro s j h; exact h
  | cons t ts ih =>
    intro s j h
    by_cases hf : fails t.id = true
    · simp only [runBatch, hf, if_true]
      exact ih s j h
    · simp only [Bool.not_eq_true] at hf
      simp only [runBatch, hf, Bool.false_eq_true, if_false]
      cases hok : archiveTaskOp s t.id with
      | ok s2 => exact ih s2 j (archive_ok_archived_mono hok h)
      | error e => exact ih s j h

theorem runBatch_spec (fails : Nat → Bool) :
    ∀ L s : List Task,
      (∀ t ∈ L, completedLookup s t.id = some true) →
      (runBatch fails L s).archivedCount
          = (L.filter (fun t => !fails t.id)).length ∧
      (runBatch fails L s).errors.length
          = (L.filter (fun t => fails t.id)).length ∧
      ∀ t ∈ L, fails t.id = false →
        archivedLookup (runBatch fails L s).store t.id = some true := by
  intro L
  induction L with
  | nil =>
    intro s _
    exact ⟨rfl, rfl, by intro t ht; simp at ht⟩
  | cons t ts ih =>
    intro s hyp
    by_cases hf : fails t.id = true
    · have ihh := ih s (fun u hu => hyp u (List.mem_cons_of_mem t hu))
      refine ⟨?_, ?_, ?_⟩
      · have he : (runBatch fails (t :: ts) s).archivedCount
            = (runBatch fails ts s).archivedCount := by simp [runBatch, hf]
        rw [he, ihh.1]
        simp [List.filter_cons, hf]
      · have he : (runBatch fails (t :: ts) s).errors.length
            = (runBatch fails ts s).errors.length + 1 := by simp [runBatch, hf]
        rw [he, ihh.2.1]
        simp [List.filter_cons, hf]
      · intro u hu hfu
        have hst : (runBatch fails (t :: ts) s).store
            = (runBatch fails ts s).store := by simp [runBatch, hf]
        rw [hst]
        rcases List.mem_cons.mp hu with rfl | hu2
        · simp [hfu] at hf
        · exact ihh.2.2 u hu2 hfu
    · simp only [Bool.not_eq_true] at hf
      have hc : completedLookup s t.id = some true :=
        hyp t (List.mem_cons_self t ts)
      obtain ⟨s2, hok⟩ := archive_ok_of_completedLookup hc
      have hshape : shape s2 = shape s := archive_ok_shape hok
      have hyp2 : ∀ u ∈ ts, completedLookup s2 u.id = some true := by
        intro u hu
        rw [completedLookup_eq_shape, hshape, ← completedLookup_eq_shape]
        exact hyp u (List.mem_cons_of_mem t hu)
      have ihh := ih s2 hyp2
      refine ⟨?_, ?_, ?_⟩
      · have he : (runBatch fails (t :: ts) s).archivedCount
            = (runBatch fails ts s2).archivedCount + 1 := by
          simp [runBatch, hf, hok]
        rw [he, ihh.1]
        simp [List.filter_cons, hf]
      · have he : (runBatch fails (t :: ts) s).errors.length
            = (runBatch fails ts s2).errors.length := by simp [runBatch, hf, hok]
        rw [he, ihh.2.1]
        simp [List.filter_cons, hf]
      · intro u hu hfu
        have hst : (runBatch fails (t :: ts) s).store
            = (runBatch fails ts s2).store := by simp [runBatch, hf, hok]
        rw [hst]
        rcases List.mem_cons.mp hu with rfl | hu2
        · exact runBatch_archived_mono fails ts s2 u.id
            (archive_ok_archivedLookup hok)
        · exact ihh.2.2 u hu2 hfu

theorem filter_length_split {α : Type} (p : α → Bool) :
    ∀ L : List α,
      (L.filter p).length + (L.filter (fun a => !p a)).length = L.length := by
  intro L
  induction L with
  | nil => rfl
  | cons a as ih =>
    by_cases h : p a = true <;> simp [List.filter_cons, h] <;> omega

theorem findTask_of_nodup :
    ∀ s : List Task, (s.map (fun t => t.id)).Nodup →
      ∀ t ∈ s, findTask t.id s = some t := by
  intro s
  induction s with
  | nil => intro _ t ht; simp at ht
  | cons u us ih =>
    intro hnd t ht
    rw [List.map_cons, List.nodup_cons] at hnd
    rcases List.mem_cons.mp ht with rfl | ht2
    · simp [findTask, List.find?_cons]
    · have hne : (u.id == t.id) = false := by
        rw [beq_eq_false_iff_ne]
        intro he
        exact hnd.1 (by rw [he]; exact List.mem_map_of_mem (fun t => t.id) ht2)
      simp only [findTask, List.find?_cons, hne]
      exact ih hnd.2 t ht2

theorem completedLookup_of_mem_completedUnarchived {s : List Task}
    (hnd : (s.map (fun t => t.id)).Nodup) {t : Task}
    (ht : t ∈ completedUnarchived s) : completedLookup s t.id = some true := by
  have hmem := (List.mem_filter.mp ht).1
  have hcomp := (List.mem_filter.mp ht).2
  rw [Bool.and_eq_true] at hcomp
  unfold completedLookup
  rw [findTask_of_nodup s hnd t hmem]
  simp [hcomp.1]

theorem startsWith_self_append (p b : List Char) : startsWith p (p ++ b) = true := by
  induction p with
  | nil => rfl
  | cons c cs ih => simp [startsWith, ih]

theorem containsSub_append_mid (a p b : List Char) :
    containsSub p (a ++ (p ++ b)) = true := by
  induction a with
  | nil =>
    simp only [List.nil_append]
    cases p with
    | nil =>
      cases b with
      | nil => rfl
      | cons x xs => simp [containsSub, startsWith]
    | cons c cs =>
      have h := startsWith_self_append (c :: cs) b
      simp only [List.cons_append] at h
      simp [containsSub, h]
  | cons x xs ih =>
    simp [List.cons_append, containsSub, ih]

theorem containsSub_natStr_batchMessage (count : Nat)
    (errors : List (List Char)) :
    containsSub (natStr count) (batchMessage count errors) = true := by
  unfold batchMessage
  exact containsSub_append_mid _ _ _

/-- C6: when the ids of the store are distinct and exactly one
completed-but-unarchived task has a failing archive call, the
`archive_completed` batch still archives every other completed-unarchived
task, its success counter is the batch size minus one, exactly one error
line is collected, and the result message reports that count. -/
theorem c6_batch_partial_failure (s : List Task) (fails : Nat → Bool)
    (hnd : (s.map (fun t => t.id)).Nodup)
    (h1 : ((completedUnarchived s).filter (fun t => fails t.id)).length = 1) :
    (archiveCompletedBatch fails s).archivedCount
        = (completedUnarchived s).length - 1 ∧
    (archiveCompletedBatch fails s).errors.length = 1 ∧
    ((completedUnarchived s).all (fun t =>
        fails t.id ||
          (archivedLookup (archiveCompletedBatch fails s).store t.id
            == some true))) = true ∧
    containsSub (natStr ((completedUnarchived s).length - 1))
        (batchMessage (archiveCompletedBatch fails s).archivedCount
          (archiveCompletedBatch fails s).errors) = true := by
  have hyp : ∀ t ∈ completedUnarchived s, completedLookup s t.id = some true :=
    fun t ht => completedLookup_of_mem_completedUnarchived hnd ht
  have hs := runBatch_spec fails (completedUnarchived s) s hyp
  have hlen := filter_length_split (fun t => fails t.id) (completedUnarchived s)
  have hcount : (archiveCompletedBatch fails s).archivedCount
      = (completedUnarchived s).length - 1 := by
    have h2 := hs.1
    unfold archiveCompletedBatch
    omega
  refine ⟨hcount, ?_, ?_, ?_⟩
  · unfold archiveCompletedBatch
    rw [hs.2.1, h1]
  · rw [List.all_eq_true]
    intro t ht
    by_cases hfl : fails t.id = true
    · simp [hfl]
    · simp only [Bool.not_eq_true] at hfl
      have h3 := hs.2.2 t ht hfl
      simp [hfl, archiveCompletedBatch, h3]
  · rw [hcount]
    exact containsSub_natStr_batchMessage _ _

theorem c6_batch_partial_failure_witness :
    (archiveCompletedBatch c6Fails c6Store).archivedCount
        = (completedUnarchived c6Store).length - 1 ∧
    (archiveCompletedBatch c6Fails c6Store).errors.length = 1 ∧
    ((completedUnarchived c6Store).all (fun t =>
        c6Fails t.id ||
          (archivedLookup (archiveCompletedBatch c6Fails c6Store).store t.id
            == some true))) = true ∧
    containsSub (natStr ((completedUnarchived c6Store).length - 1))
        (batchMessage (archiveCompletedBatch c6Fails c6Store).archivedCount
          (archiveCompletedBatch c6Fails c6Store).errors) = true :=
  c6_batch_partial_failure c6Store c6Fails (by decide) (by decide)

/-- C1: the invariant `archived ⇒ completed` is not preserved by every
operation sequence: starting from the empty store, `add_task`, then the
MCP-server toggle `complete_task`, then `archive_task` produce a store
satisfying the invariant, and one further toggle `complete_task` call on
the archived task leaves it archived but not completed. -/
theorem c1_toggle_breaks_invariant :
    c1s0 = [⟨1, str "write report", false, false, none⟩] ∧
    okOf (completeToggleOp c1s0 1) = some c1s1 ∧
    okOf (archiveTaskOp c1s1 1) = some c1s2 ∧
    invariantOk c1s2 = true ∧
    okOf (completeToggleOp c1s2 1) = some c1s3 ∧
    invariantOk c1s3 = false := by
  decide

/-- C2 counterexample: on a store whose task 1 is already completed, the
dashboard set-variant `complete_task` and the MCP-server toggle-variant
`complete_task` disagree on the resulting `completed` flag, so the two
code paths are not observationally equivalent. -/
theorem c2_set_vs_toggle_differ :
    completedResult (completeSetOp c2Store 1) 1 = some true ∧
    completedResult (completeToggleOp c2Store 1) 1 = some false ∧
    completedResult (completeSetOp c2Store 1) 1 ≠
      completedResult (completeToggleOp c2Store 1) 1 := by
  decide

/-- C2 amended: the two `complete_task` implementations agree exactly on
tasks that are not yet completed: when the targeted task exists with
`completed = false`, both leave it with `completed = true`.  On an already
completed task they diverge (shown by the counterexample). -/
theorem c2_agree_on_incomplete (s : List Task) (i : Nat) (t : Task)
    (hfind : findTask i s = some t) (hc : t.completed = false) :
    completedResult (completeSetOp s i) i = some true ∧
    completedResult (completeToggleOp s i) i = some true := by
  constructor
  · have h2 := findTask_setFirst i (fun u => { u with completed := true })
      (fun u => rfl) s t hfind
    simp [completeSetOp, hfind, completedResult, h2]
  · have h2 := findTask_setFirst i (fun u => { u with completed := !u.completed })
      (fun u => rfl) s t hfind
    simp [completeToggleOp, hfind, completedResult, h2, hc]

theorem c2_agree_on_incomplete_witness :
    completedResult (completeSetOp c2Store2 2) 2 = some true ∧
    completedResult (completeToggleOp c2Store2 2) 2 = some true :=
  c2_agree_on_incomplete c2Store2 2 ⟨2, str "buy milk", false, false, none⟩
    (by decide) (by decide)

theorem isUpperCh_lowerChar (c : Char) : isUpperCh (lowerChar c) = false := by
  unfold lowerChar
  cases h : caseTable.find? (fun p => p.1 == c) with
  | none => simp [isUpperCh, h]
  | some p =>
    have hp : p ∈ caseTable := List.mem_of_find?_eq_some h
    have hall : ∀ q ∈ caseTable, isUpperCh q.2 = false := by decide
    exact hall p hp

theorem noUpper_lowerStr (l : List Char) : noUpper (lowerStr l) = true := by
  simp only [noUpper, lowerStr, List.all_map, List.all_eq_true]
  intro c _
  simp [Function.comp, isUpperCh_lowerChar]

theorem noUpper_of_mem {l1 l2 : List Char} (hsub : ∀ c ∈ l1, c ∈ l2)
    (h : noUpper l2 = true) : noUpper l1 = true := by
  simp only [noUpper, List.all_eq_true] at *
  intro c hc
  exact h c (hsub c hc)

theorem mem_trimStr {c : Char} {l : List Char} (h : c ∈ trimStr l) : c ∈ l := by
  unfold trimStr at h
  rw [List.mem_reverse] at h
  have h2 := (List.dropWhile_sublist (l := (l.dropWhile isWs).reverse) isWs).subset h
  rw [List.mem_reverse] at h2
  exact (List.dropWhile_sublist (l := l) isWs).subset h2

theorem restMatch_mem {t g2 : List Char} (h : restMatch t = some g2) :
    ∀ c ∈ g2, c ∈ t := by
  simp only [restMatch] at h
  split at h
  · split at h
    · injection h with h2
      subst h2
      intro c hc
      exact (List.dropWhile_sublist (l := t) isWs).subset hc
    · exact absurd h (by simp)
  · cases hl : t.getLast? with
    | none => rw [hl] at h; simp at h
    | some a =>
      rw [hl] at h
      by_cases hn : isNl a = true
      · simp [hn] at h
      · simp only [Bool.not_eq_true] at hn
        simp [hn] at h
        subst h
        intro c hc
        rw [List.mem_singleton] at hc
        subst hc
        exact List.mem_of_mem_getLast? hl

theorem lazySplitGo_mem (marker : List Char) :
    ∀ (rest g1rev g1 g2 : List Char),
      lazySplitGo marker g1rev rest = some (g1, g2) → ∀ c ∈ g2, c ∈ rest := by
  intro rest
  induction rest with
  | nil => intro g1rev g1 g2 h; simp [lazySplitGo] at h
  | cons a as ih =>
    intro g1rev g1 g2 h
    simp only [lazySplitGo] at h
    split at h
    · rename_i g2x hm
      rw [Option.some.injEq, Prod.mk.injEq] at h
      obtain ⟨hg1, hg2⟩ := h
      subst hg2
      split at hm
      · intro c hc
        exact List.drop_subset marker.length (a :: as) (restMatch_mem hm c hc)
      · exact absurd hm (by simp)
    · split at h
      · exact absurd h (by simp)
      · intro c hc
        exact List.mem_cons_of_mem a (ih (a :: g1rev) g1 g2 h c hc)

theorem lazySplit_mem {marker r g1 g2 : List Char}
    (h : lazySplit marker r = some (g1, g2)) : ∀ c ∈ g2, c ∈ r := by
  cases r with
  | nil => simp [lazySplit] at h
  | cons a as =>
    simp only [lazySplit] at h
    split at h
    · exact absurd h (by simp)
    · intro c hc
      exact List.mem_cons_of_mem a (lazySplitGo_mem marker as [a] g1 g2 h c hc)

theorem runPattern_mem {norm : List Char} {p : List Char × List Char}
    {g1 g2 : List Char} (h : runPattern norm p = some (g1, g2)) :
    ∀ c ∈ g2, c ∈ norm := by
  unfold runPattern at h
  cases hd : dropPre p.1 norm with
  | none => rw [hd] at h; simp at h
  | some r =>
    rw [hd] at h
    have h2 : lazySplit p.2 r = some (g1, g2) := h
    unfold dropPre at hd
    by_cases hs : startsWith p.1 norm = true
    · rw [if_pos hs, Option.some.injEq] at hd
      subst hd
      intro c hc
      exact List.drop_subset p.1.length norm (lazySplit_mem h2 c hc)
    · rw [if_neg hs] at hd; exact absurd hd (by simp)

theorem parseDayTimeSpec_day_lower (spec : List Char) (tw : Nat) :
    optNoUpper (parseDayTimeSpec spec tw).day = true := by
  simp only [parseDayTimeSpec]
  split_ifs
  · rfl
  · rfl
  · split
    · rename_i p hp
      have hmem : p ∈ dayEntries := List.mem_of_find?_eq_some hp
      have hall : ∀ q ∈ dayEntries, noUpper q.1 = true := by decide
      simpa [optNoUpper] using hall p hmem
    · rfl

/-- C10: `parseTaskCommand` lowercases and trims the whole utterance before
template matching, so every successfully parsed command has an entirely
lowercase task text and an entirely lowercase day string: the original
capitalization of the task description is not preserved. -/
theorem c10_parse_lowercases (input : List Char) (todayW : Nat) (cmd : Command)
    (h : parseTaskCommand input todayW = some cmd) :
    noUpper cmd.taskText = true ∧ optNoUpper cmd.day = true := by
  simp only [parseTaskCommand] at h
  cases hfs : addTaskPatterns.findSome? (runPattern (trimStr (lowerStr input))) with
  | none => rw [hfs] at h; exact absurd h (by simp)
  | some pr =>
    obtain ⟨g1, g2⟩ := pr
    rw [hfs] at h
    have h2 : (⟨trimStr g2, (parseDayTimeSpec g1 todayW).day,
        (parseDayTimeSpec g1 todayW).timeSlot,
        (parseDayTimeSpec g1 todayW).dateOffset⟩ : Command) = cmd :=
      Option.some.inj h
    subst h2
    obtain ⟨p, _, hrun⟩ := List.exists_of_findSome?_eq_some hfs
    have hnorm : noUpper (trimStr (lowerStr input)) = true :=
      noUpper_of_mem (fun c hc => mem_trimStr hc) (noUpper_lowerStr input)
    constructor
    · exact noUpper_of_mem
        (fun c hc => runPattern_mem hrun c (mem_trimStr hc)) hnorm
    · exact parseDayTimeSpec_day_lower g1 todayW

theorem c10_parse_lowercases_witness :
    noUpper (Command.taskText ⟨str "buy milk", some (str "tuesday"),
        some Slot.morning, some 2⟩) = true ∧
    optNoUpper (Command.day ⟨str "buy milk", some (str "tuesday"),
        some Slot.morning, some 2⟩) = true :=
  c10_parse_lowercases (str "Add task for Tuesday Morning: Buy MILK") 0
    ⟨str "buy milk", some (str "tuesday"), some Slot.morning, some 2⟩
    (by decide)

/-- C3 counterexample: with exactly the two non-completed tasks "Call mom"
and "Call dad" in the snapshot, resolving "call" does not yield confidence
ambiguous: the prefix tier fires first. -/
theorem c3_resolve_call_not_ambiguous :
    (findTaskByName callSched (str "call")).confidence ≠ Confidence.ambiguous := by
  decide

/-- C3 amended: with exactly the two non-completed tasks "Call mom" and
"Call dad" in the snapshot, resolving "call" yields confidence high with
the first prefix match "Call mom" as the task and no candidate list: the
prefix tier fires before the fuzzy tier, so the ambiguous case is never
reached. -/
theorem c3_resolve_call_high :
    findTaskByName callSched (str "call") =
      ⟨some callMom, Confidence.high, Option.none⟩ := by
  decide

/-- C5: when the dispatcher handles a `complete_task` intent carrying a
`taskName` and the resolver confidence is medium, low, ambiguous, or none,
no completion call is made (the decision is `none`) and the task store is
left unchanged, whatever the completion tool would do. -/
theorem c5_low_confidence_skips (call : List Task → Nat → List Task)
    (sched : Schedule) (name : List Char) (s : List Task)
    (h : (findTaskByName sched name).confidence = Confidence.medium ∨
         (findTaskByName sched name).confidence = Confidence.low ∨
         (findTaskByName sched name).confidence = Confidence.ambiguous ∨
         (findTaskByName sched name).confidence = Confidence.none) :
    completeByNameDecision sched name = Option.none ∧
    dispatchCompleteByName call sched name s = s := by
  have hne : ¬((findTaskByName sched name).confidence = Confidence.exact ∨
               (findTaskByName sched name).confidence = Confidence.high) := by
    rcases h with h | h | h | h <;> simp [h]
  have hdec : completeByNameDecision sched name = Option.none := by
    simp only [completeByNameDecision]
    rw [if_neg hne]
  exact ⟨hdec, by simp [dispatchCompleteByName, hdec]⟩

theorem c5_low_confidence_skips_witness :
    completeByNameDecision emptySched (str "xyz") = Option.none ∧
    dispatchCompleteByName (fun s _ => s) emptySched (str "xyz") [] = [] :=
  c5_low_confidence_skips (fun s _ => s) emptySched (str "xyz") []
    (by decide)

/-- C8 counterexample: under the reading in which the colon or "am" after
the hour token is optional, the claim fails: "sell 6 cars" contains a bare
hour token and no "lunch", yet it is not categorized as morning (the regex
requires the follower, and no keyword matches either). -/
theorem c8_bare_hour_counterexample : ¬ claimC8Optional := by
  intro h
  exact absurd (h (str "sell 6 cars") (by decide) (by decide)) (by decide)

/-- C8 amended: for every task text without "lunch", if the lowercased text
contains "am", contains "morning", or contains an hour token 6-9 followed
(after optional whitespace) by a colon or "am", the categorizer returns
morning; this rule fires before the pm/evening rules and before keyword
scoring. -/
theorem c8_hour_rule (text : List Char)
    (h1 : containsSub (str "lunch") (lowerStr text) = false)
    (h2 : (containsSub (str "am") (lowerStr text) ||
           containsSub (str "morning") (lowerStr text) ||
           hourTokenMatch (lowerStr text)) = true) :
    categorizeTask text = some Slot.morning := by
  simp [categorizeTask, h1, h2]

theorem c8_hour_rule_witness :
    categorizeTask (str "meet at 7am") = some Slot.morning :=
  c8_hour_rule (str "meet at 7am") (by decide) (by decide)

/-- C9: when none of the four priority rules fires, the categorizer counts
keyword hits against the three curated lists and returns `none` exactly
when all three counts are zero, and otherwise the slot with the greatest
count, ties broken by the fixed priority morning > afternoon > evening
(`specPick`); the result is a function of the text alone. -/
theorem c9_keyword_scoring (text : List Char)
    (h1 : containsSub (str "lunch") (lowerStr text) = false)
    (h2 : (containsSub (str "am") (lowerStr text) ||
           containsSub (str "morning") (lowerStr text) ||
           hourTokenMatch (lowerStr text)) = false)
    (h3 : (containsSub (str "pm") (lowerStr text) &&
           (containsSub (str "6") (lowerStr text) ||
            containsSub (str "7") (lowerStr text) ||
            containsSub (str "8") (lowerStr text) ||
            containsSub (str "9") (lowerStr text) ||
            containsSub (str "10") (lowerStr text))) = false)
    (h4 : (containsSub (str "evening") (lowerStr text) ||
           containsSub (str "night") (lowerStr text) ||
           containsSub (str "tonight") (lowerStr text)) = false) :
    categorizeTask text =
      if keywordScore morningKeywords (lowerStr text) = 0 ∧
         keywordScore afternoonKeywords (lowerStr text) = 0 ∧
         keywordScore eveningKeywords (lowerStr text) = 0 then Option.none
      else
        some (specPick (keywordScore morningKeywords (lowerStr text))
                (keywordScore afternoonKeywords (lowerStr text))
                (keywordScore eveningKeywords (lowerStr text))) := by
  have key : ∀ m a e : Nat,
      (if m = 0 ∧ a = 0 ∧ e = 0 then (Option.none : Option Slot)
       else if m ≥ a ∧ m ≥ e then some .morning
       else if a ≥ e then some .afternoon
       else some .evening) =
      (if m = 0 ∧ a = 0 ∧ e = 0 then Option.none else some (specPick m a e)) := by
    intro m a e
    unfold specPick
    split_ifs <;> first | rfl | omega
  simp only [categorizeTask, h1, h2, h3, h4, Bool.false_eq_true, if_false]
  exact key _ _ _

theorem c9_keyword_scoring_witness :
    categorizeTask (str "go for a walk") = Option.none := by
  rw [c9_keyword_scoring (str "go for a walk") (by decide) (by decide)
      (by decide) (by decide)]
  decide

/-- C7: calling `archive_task` on an existing task whose `completed` flag is
false raises an error, and since the error is raised before any write the
persisted plan equals the plan before the call. -/
theorem c7_archive_incomplete_rejected (s : List Task) (i : Nat) (t : Task)
    (hfind : findTask i s = some t) (hc : t.completed = false) :
    isErr (archiveTaskOp s i) = true ∧ persistedArchive s i = s := by
  refine ⟨?_, ?_⟩ <;> simp [archiveTaskOp, hfind, hc, isErr, persistedArchive]

/-- C4: for every weekday table entry (full or abbreviated name, none of
which contains today or tomorrow), resolving that qualifier yields a date
offset equal to `daysUntil = targetWeekday - todayWeekday` with 7 added when
the difference is not positive: the offset is between 1 and 7 (strictly
after today), lands on the target weekday, and naming the current weekday
gives exactly 7; moreover "add task for tuesday morning: X" parses to
`timeSlot = morning` with the date set to the next Tuesday strictly after
today. -/
theorem c4_weekday_next_occurrence :
    ∀ todayW : Nat, todayW < 7 →
      (∀ p ∈ weekdayEntries,
        (parseDayTimeSpec p.1 todayW).dateOffset = some (nextOffset p.2 todayW) ∧
        1 ≤ nextOffset p.2 todayW ∧ nextOffset p.2 todayW ≤ 7 ∧
        (nextOffset p.2 todayW + todayW) % 7 = p.2 % 7 ∧
        (p.2 = todayW → nextOffset p.2 todayW = 7)) ∧
      parseTaskCommand (str "add task for tuesday morning: X") todayW =
        some ⟨str "x", some (str "tuesday"), some Slot.morning,
              some (nextOffset 2 todayW)⟩ := by
  decide

theorem c4_weekday_next_occurrence_witness :
    (parseDayTimeSpec (str "tuesday") 2).dateOffset = some (nextOffset 2 2) ∧
    parseTaskCommand (str "add task for tuesday morning: X") 2 =
      some ⟨str "x", some (str "tuesday"), some Slot.morning,
            some (nextOffset 2 2)⟩ :=
  ⟨((c4_weekday_next_occurrence 2 (by decide)).1 (str "tuesday", 2)
      (by decide)).1,
   (c4_weekday_next_occurrence 2 (by decide)).2⟩

theorem c7_archive_incomplete_rejected_witness :
    isErr (archiveTaskOp c7Store 3) = true ∧ persistedArchive c7Store 3 = c7Store :=
  c7_archive_incomplete_rejected c7Store 3 ⟨3, str "clean desk", false, false, none⟩
    (by decide) (by decide)

end Planner
